import Mathlib

/-!
Verification development for the lassecoin chain state engine.

The engine (`blockchain.rs`) and the lottery (`is_winner` in `lib.rs`) are
embedded shallowly below.  The repository modules `ledger.rs`, `block.rs`,
`draw.rs` and `transaction.rs` are not part of the provided sources; the
definitions that stand in for them are modelled from the specification and
each carries a doc comment saying so.

Modelling conventions:
* machine integers (`u64`, `u128`, `BigUint`) become `Nat`; the lottery is
  exact arbitrary-precision arithmetic in the source (`BigUint`), so no
  modular reduction is needed there;
* cryptographic primitives are out of scope for the source (black-box
  RSA-PSS/SHA-256).  Signatures are abstracted by a `sigOk : Bool` field;
  SHA-256 is modelled as an injective function of its input byte string
  (collisions are ignored, matching the collision-free idealization);
* the wall clock is external to the engine; the value that
  `calculate_timeslot()` returns during a call is passed as a `now`
  parameter;
* `HashMap`/`HashSet` become association lists / deduplicated lists with
  deterministic order;
* recursion that the Rust source performs with unbounded loops or direct
  recursion (the orphan cascade, the rollback walk, the audit walk) gets an
  explicit fuel parameter; exhausted fuel, like a Rust panic (`unwrap`),
  yields `none`.
-/

/-- Association-list lookup, modelling `HashMap::get`. -/
def alookup {α β : Type} [DecidableEq α] : List (α × β) → α → Option β
  | [], _ => none
  | (k, v) :: rest, a => if k = a then some v else alookup rest a

/-- Association-list insert-or-replace, modelling `HashMap::insert`
(replacement keeps the entry position; a fresh key is appended). -/
def ainsert {α β : Type} [DecidableEq α] : List (α × β) → α → β → List (α × β)
  | [], a, v => [(a, v)]
  | (k, w) :: rest, a, v =>
      if k = a then (k, v) :: rest else (k, w) :: ainsert rest a v

/-- Association-list erase, modelling `HashMap::remove`. -/
def aerase {α β : Type} [DecidableEq α] : List (α × β) → α → List (α × β)
  | [], _ => []
  | (k, w) :: rest, a => if k = a then rest else (k, w) :: aerase rest a

/-- Replace the element at index `i` (no-op when out of range),
modelling in-place mutation of `Vec[i]`. -/
def listModify {α : Type} (f : α → α) : List α → Nat → List α
  | [], _ => []
  | x :: rest, 0 => f x :: rest
  | x :: rest, i + 1 => x :: listModify f rest i

/-- Constant from `lib.rs`: `pub const TRANSACTION_FEE: u64 = 1`. -/
def TRANSACTION_FEE : Nat := 1

/-- Constant from `lib.rs`: `pub const BLOCK_REWARD: u64 = 50`. -/
def BLOCK_REWARD : Nat := 50

/-- Constant from `lib.rs`: `pub const ROOT_AMOUNT: u64 = 300`. -/
def ROOT_AMOUNT : Nat := 300

/-- Account identifier: an RSA public key, identified with its canonical
serialized form; modelled abstractly as a natural number. -/
abbrev Account := Nat

/-- A 32-byte SHA-256 digest; modelled as the byte string it was computed
from (SHA-256 idealized as injective). -/
abbrev Hash := List Nat

/-- SHA-256, idealized as an injective function of its input bytes. -/
def sha256 (input : List Nat) : Hash := input

/-- Canonical (PKCS1-DER) encoding of a public key;
modelled as an injective one-byte encoding. -/
def encodeAccount (a : Account) : List Nat := [a]

/-- Modelled from the spec: `transaction.rs` is not in `src/`.
`{ from, to, amount, timeslot, signature }`; `sigOk` abstracts whether the
signature validates `(from, to, amount, timeslot)` under `from`'s key. -/
structure Transaction where
  from_ : Account
  to_ : Account
  amount : Nat
  timeslot : Nat
  sigOk : Bool
deriving DecidableEq

/-- Modelled from the spec: `draw.rs` is not in `src/`.
`{ timeslot, signed_by, prev_hash, signature }`; `value` is
SHA-256(signature) read as a 256-bit unsigned integer and is carried
abstractly, `sigOk` abstracts the draw signature check. -/
structure Draw where
  timeslot : Nat
  signed_by : Account
  prev_hash : Hash
  value : Nat
  sigOk : Bool
deriving DecidableEq

/-- Modelled from the spec: `block.rs` is not in `src/`.  Field set as used
by `blockchain.rs` (the producer identity is `draw.signed_by`); `sigOk`
abstracts `Block::verify_signature`. -/
structure Block where
  timeslot : Nat
  prev_hash : Hash
  depth : Nat
  transactions : List Transaction
  draw : Draw
  hash : Hash
  sigOk : Bool
deriving DecidableEq

/-- Modelled from the spec: `ledger.rs` is not in `src/` (spec section 4.1).
`map` is the account-to-balance map; `slots` keeps, per sender, the stack of
timeslots of currently-applied transactions (most recent first), which
realizes both the strictly-increasing replay guard and the requirement that
`rollback_transaction` restores the sender's prior high-water timeslot. -/
structure Ledger where
  map : List (Account × Nat)
  slots : List (Account × List Nat)
deriving DecidableEq

/-- Modelled from the spec: balance lookup (`Ledger::get_balance`);
a missing entry denotes balance zero. -/
def Ledger.getBal (l : Ledger) (a : Account) : Nat :=
  (alookup l.map a).getD 0

/-- Modelled from the spec: `Ledger::reward_winner` — unconditional credit,
no signature check. -/
def Ledger.reward_winner (l : Ledger) (a : Account) (amt : Nat) : Ledger :=
  { l with map := ainsert l.map a (l.getBal a + amt) }

/-- Modelled from the spec: `Ledger::rollback_reward` — unconditional debit
of `BLOCK_REWARD` (the `blockchain.rs` call sites pass no amount).  `Nat`
truncation stands in for `u64` underflow, which no claim exercises. -/
def Ledger.rollback_reward (l : Ledger) (a : Account) : Ledger :=
  { l with map := ainsert l.map a (l.getBal a - BLOCK_REWARD) }

/-- Modelled from the spec: `Ledger::get_total_money_in_ledger` — the sum of
all balances. -/
def Ledger.get_total_money_in_ledger (l : Ledger) : Nat :=
  (l.map.map Prod.snd).sum

/-- The sender's current high-water timeslot, if any transaction of theirs
is applied. -/
def Ledger.lastSlot (l : Ledger) (a : Account) : Option Nat :=
  ((alookup l.slots a).getD []).head?

/-- Modelled from the spec: `Ledger::is_transaction_possible` — the
transaction applies iff its signature validates, the sender can cover
`amount + TRANSACTION_FEE`, and its timeslot strictly exceeds the sender's
high-water mark. -/
def Ledger.is_transaction_possible (l : Ledger) (t : Transaction) : Bool :=
  t.sigOk && decide (t.amount + TRANSACTION_FEE ≤ l.getBal t.from_) &&
    (match l.lastSlot t.from_ with
     | none => true
     | some s => decide (s < t.timeslot))

/-- Modelled from the spec: `Ledger::process_transaction` — on success debit
the sender by `amount + fee` (the fee is burned), credit the recipient by
`amount`, and push the timeslot on the sender's stack; on failure leave the
ledger untouched and report `false`. -/
def Ledger.process_transaction (l : Ledger) (t : Transaction) : Ledger × Bool :=
  if l.is_transaction_possible t then
    let l1 : Ledger :=
      { l with map := ainsert l.map t.from_ (l.getBal t.from_ - (t.amount + TRANSACTION_FEE)) }
    let l2 : Ledger :=
      { l1 with map := ainsert l1.map t.to_ (l1.getBal t.to_ + t.amount) }
    ({ l2 with
        slots := ainsert l2.slots t.from_ (t.timeslot :: (alookup l2.slots t.from_).getD []) },
      true)
  else (l, false)

/-- Modelled from the spec: `Ledger::rollback_transaction` — inverse of a
previously applied transaction: credit the sender by `amount + fee`, debit
the recipient by `amount`, pop the sender's timeslot stack (an entry whose
stack empties is removed, so that apply-then-rollback restores the ledger
exactly). -/
def Ledger.rollback_transaction (l : Ledger) (t : Transaction) : Ledger :=
  let l1 : Ledger :=
    { l with map := ainsert l.map t.from_ (l.getBal t.from_ + (t.amount + TRANSACTION_FEE)) }
  let l2 : Ledger :=
    { l1 with map := ainsert l1.map t.to_ (l1.getBal t.to_ - t.amount) }
  let rest := ((alookup l2.slots t.from_).getD []).tail
  { l2 with
      slots := if rest.isEmpty then aerase l2.slots t.from_
               else ainsert l2.slots t.from_ rest }

/-- The stake-weighted lottery, from `lib.rs`:
win iff `value * (hardness * total + balance * (2^256 - hardness))
       > hardness * total * 2^256`, in exact arithmetic (`BigUint`).
The `always_win` test feature is compiled out by default and not modelled.
(The copy of `is_winner` in the provided `lib.rs` reads the draw out of a
block; the `blockchain.rs` call sites pass the draw itself, which is what
is taken here.) -/
def is_winner (ledger : Ledger) (draw : Draw) (wallet : Account) : Bool :=
  let balance := ledger.getBal wallet
  let total_money := ledger.get_total_money_in_ledger
  let max_hash := 2 ^ 256
  let hardness := 10421 * 10 ^ 73
  let mult_factor := hardness * total_money + balance * (max_hash - hardness)
  decide (hardness * total_money * max_hash < draw.value * mult_factor)

/-- Strict lexicographic order on byte strings (shorter strings first). -/
def hashLexLt : List Nat → List Nat → Bool
  | [], [] => false
  | [], _ :: _ => true
  | _ :: _, [] => false
  | a :: as, b :: bs => if a < b then true else if b < a then false else hashLexLt as bs

/-- Modelled from the spec: `Block::is_better_than` (`block.rs` is not in
`src/`; spec section 4.2): strict total order at equal depth — the higher
draw value wins, exact draw ties are broken by comparing the block hashes
lexicographically (the greater hash wins; the spec fixes lexicographic
comparison but not its direction). -/
def Block.is_better_than (b1 b2 : Block) : Bool :=
  if b2.draw.value < b1.draw.value then true
  else if b1.draw.value < b2.draw.value then false
  else hashLexLt b2.hash b1.hash

/-- The chain state engine (`Blockchain` in `blockchain.rs`).  `start_time`
is dropped: it only feeds `calculate_timeslot`, whose per-call result is
passed to the operations as a `now` parameter instead. -/
structure Blockchain where
  blocks : List (List (Hash × Block))
  best_path_head : Hash × Nat
  ledger : Ledger
  root_accounts : List Account
  orphans : List (Hash × List Block)
  transaction_buffer : List Transaction
deriving DecidableEq

/-- The genesis block built by `Blockchain::start` via
`Block::new(0, seed_hash, 0, root_accounts[0], vec![], any_sk)`.
`Block::new` is not in `src/`; its hash (SHA-256 over the canonical field
encoding) is modelled injectively by tagging the seed hash, and the draw it
signs is carried abstractly. -/
def genesisBlock (root_accounts : List Account) : Block :=
  let seed_hash := sha256 (root_accounts.foldl (fun acc ra => acc ++ encodeAccount ra) [])
  { timeslot := 0
    prev_hash := seed_hash
    depth := 0
    transactions := []
    draw := { timeslot := 0, signed_by := root_accounts.headD 0,
              prev_hash := seed_hash, value := 0, sigOk := true }
    hash := 0 :: seed_hash
    sigOk := true }

/-- `Blockchain::start`: hash the root accounts' canonical encodings in the
order supplied, build the genesis block on that seed hash, and credit every
root account with `ROOT_AMOUNT`. -/
def Blockchain.start (root_accounts : List Account) : Blockchain :=
  let g := genesisBlock root_accounts
  { blocks := [[(g.hash, g)]]
    best_path_head := (g.hash, 0)
    ledger := root_accounts.foldl (fun l ra => l.reward_winner ra ROOT_AMOUNT) ⟨[], []⟩
    root_accounts := root_accounts
    orphans := []
    transaction_buffer := [] }

/-- Fetch a block by hash at a given depth, as the `get_block` closures in
`blockchain.rs` do (`self.blocks.get(depth).and_then(|m| m.get(hash))`). -/
def Blockchain.getBlock (bc : Blockchain) (h : Hash) (d : Nat) : Option Block :=
  (bc.blocks.get? d).bind (fun m => alookup m h)

/-- Parent lookup in `add_block`: `self.blocks.get(depth - 1)?.get(&prev_hash)`.
`depth` is `usize`; at depth 0 the Rust subtraction wraps to `2^64 - 1`,
an always-out-of-range index, so the lookup is `none`. -/
def Blockchain.getParent (bc : Blockchain) (block : Block) : Option Block :=
  if block.depth = 0 then none
  else (bc.blocks.get? (block.depth - 1)).bind (fun m => alookup m block.prev_hash)

/-- Orphan parking: `self.orphans.get_mut(&prev).push(block)` or
`self.orphans.insert(prev, vec![block])`. -/
def orphanInsert (orphans : List (Hash × List Block)) (prev : Hash) (b : Block) :
    List (Hash × List Block) :=
  match alookup orphans prev with
  | some l => ainsert orphans prev (l ++ [b])
  | none => orphans ++ [(prev, [b])]

/-- `HashSet::insert` on the transaction buffer (deduplicated). -/
def bufInsert (buf : List Transaction) (t : Transaction) : List Transaction :=
  if t ∈ buf then buf else buf ++ [t]

/-- Remove every transaction of the block from the buffer
(`for t in block.transactions { self.transaction_buffer.remove(t) }`). -/
def bufRemoveAll (buf : List Transaction) (ts : List Transaction) : List Transaction :=
  buf.filter (fun t => decide (t ∉ ts))

/-- Grow the depth-indexed block vector with empty maps
(`while depth >= self.blocks.len() { self.blocks.push(HashMap::new()) }`). -/
def padBlocks (blocks : List (List (Hash × Block))) (target : Nat) :
    List (List (Hash × Block)) :=
  blocks ++ List.replicate (target - blocks.length) []

/-- The loop of `Blockchain::rollback`: walk the `to` pointer (and, at equal
depths, the `from` pointer) back towards the common ancestor, pushing the
`to`-side blocks on the replay stack and undoing ledger effects exactly as
the source does: the special depth-1 case undoes the reward of the
`to`-branch depth-1 block and re-adds the `from` block's transactions to
the buffer; the general equal-depth step undoes the reward of the advanced
`to` pointer (the `to`-branch parent) and rolls the `from` block's
transactions back in forward order without re-adding them.  Fuel exhaustion
and failed lookups (`unwrap` panics) yield `none`. -/
def rollbackLoop (bc : Blockchain) :
    Nat → Block → Block → Ledger → List Transaction → List (Hash × Nat) →
    Option (Ledger × List Transaction × List (Hash × Nat))
  | fuel, fromPtr, toPtr, ledger, buffer, stack =>
    if fromPtr = toPtr then some (ledger, buffer, stack)
    else
      match fuel with
      | 0 => none
      | fuel + 1 =>
        let stack1 := (toPtr.hash, toPtr.depth) :: stack
        if toPtr.depth = 1 ∧ fromPtr.depth = 1 ∧ toPtr.prev_hash = fromPtr.prev_hash then
          let l1 := ledger.rollback_reward toPtr.draw.signed_by
          let lb := fromPtr.transactions.foldl
            (fun (p : Ledger × List Transaction) t =>
              (p.1.rollback_transaction t, bufInsert p.2 t)) (l1, buffer)
          some (lb.1, lb.2, stack1)
        else
          match bc.getBlock toPtr.prev_hash (toPtr.depth - 1) with
          | none => none
          | some toParent =>
            if toPtr.depth = fromPtr.depth then
              let l1 := ledger.rollback_reward toParent.draw.signed_by
              let l2 := fromPtr.transactions.foldl Ledger.rollback_transaction l1
              match bc.getBlock fromPtr.prev_hash (fromPtr.depth - 1) with
              | none => none
              | some fromParent => rollbackLoop bc fuel fromParent toParent l2 buffer stack1
            else rollbackLoop bc fuel fromPtr toParent ledger buffer stack1

/-- Drain the replay stack: apply each replayed block's transactions in
order (the source ignores `process_transaction`'s result here) and credit
its producer with `BLOCK_REWARD`. -/
def applyStack (bc : Blockchain) : List (Hash × Nat) → Ledger → Option Ledger
  | [], ledger => some ledger
  | (h, d) :: rest, ledger =>
    match bc.getBlock h d with
    | none => none
    | some b =>
      let l1 := b.transactions.foldl (fun l t => (l.process_transaction t).1) ledger
      applyStack bc rest (l1.reward_winner b.draw.signed_by BLOCK_REWARD)

/-- `Blockchain::rollback` — rewind-and-replay between two branch tips,
exactly as the source performs it (see `rollbackLoop`).  The loop fuel
`from.depth + to.depth + 2` covers every walk a depth-coherent tree can
produce; a tree whose stored depths are inconsistent would make the Rust
loop panic or diverge, which `none` models. -/
def Blockchain.rollback (bc : Blockchain) (fro tgt : Hash × Nat) : Option Blockchain :=
  match bc.getBlock fro.1 fro.2, bc.getBlock tgt.1 tgt.2 with
  | some fromPtr, some toPtr =>
    match rollbackLoop bc (fromPtr.depth + toPtr.depth + 2) fromPtr toPtr
        bc.ledger bc.transaction_buffer [] with
    | none => none
    | some (l, buf, stack) =>
      match applyStack bc stack l with
      | none => none
      | some l2 => some { bc with ledger := l2, transaction_buffer := buf }
  | _, _ => none

/-- The insertion stage of `add_block`: grow the level vector if needed,
insert the block at its depth, and strip its transactions from the
buffer. -/
def insertBlock (bc : Blockchain) (block : Block) : Blockchain :=
  { bc with
      blocks := listModify (fun m => ainsert m block.hash block)
        (padBlocks bc.blocks (block.depth + 1)) block.depth
      transaction_buffer := bufRemoveAll bc.transaction_buffer block.transactions }

/-- The fork-choice stage of `add_block`, operating on the post-insertion
state `bc1` with the pre-call head `old`: deeper blocks always become the
tip (fast path when extending the old tip, rewind-and-replay otherwise);
an equal-depth block becomes the tip only if `is_better_than` the current
one, again via rewind-and-replay; anything shallower leaves the tip
alone. -/
def forkChoice (bc1 : Blockchain) (old : Hash × Nat) (block : Block) : Option Blockchain :=
  if old.2 < block.depth then
    -- this is definitely the new best path
    let bcH : Blockchain := { bc1 with best_path_head := (block.hash, block.depth) }
    if old.1 ≠ block.prev_hash then bcH.rollback old (block.hash, block.depth)
    else
      let l1 := block.transactions.foldl
        (fun l t => (l.process_transaction t).1) bcH.ledger
      some { bcH with ledger := l1.reward_winner block.draw.signed_by BLOCK_REWARD }
  else if block.depth = old.2 then
    match bc1.getBlock old.1 old.2 with
    | none => none
    | some curr_best =>
      if block.is_better_than curr_best then
        Blockchain.rollback { bc1 with best_path_head := (block.hash, block.depth) }
          old (block.hash, block.depth)
      else some bc1
  else some bc1

/-- `Blockchain::add_block`.  Returns `some (state, tip_changed)`;
`none` models a Rust panic or fuel exhaustion in the orphan cascade (any
`fuel` exceeding the orphan-chain length behaves identically).  The clock
reading `self.calculate_timeslot()` is the `now` parameter; cascaded
re-admissions happen within the same call and use the same reading. -/
def Blockchain.add_block : Nat → Nat → Blockchain → Block → Option (Blockchain × Bool)
  | fuel, now, bc, block =>
    if block.sigOk then
      match bc.getParent block with
      | none =>
        -- the parent does not exist yet so we are an orphan
        some ({ bc with orphans := orphanInsert bc.orphans block.prev_hash block }, false)
      | some parent_block =>
        -- we check the timeslot
        if block.timeslot ≤ parent_block.timeslot ∨ now < block.timeslot then
          some (bc, false)
        else
          match forkChoice (insertBlock bc block) bc.best_path_head block with
          | none => none
          | some bc2 =>
            -- we check if we have any orphans, if we do we must add them after ourself
            match alookup bc2.orphans block.hash with
            | none => some (bc2, decide (bc.best_path_head.1 ≠ bc2.best_path_head.1))
            | some os =>
              match fuel with
              | 0 => none
              | fuel + 1 =>
                match os.foldl
                  (fun (acc : Option Blockchain) o =>
                    match acc with
                    | none => none
                    | some st => (Blockchain.add_block fuel now st o).map Prod.fst)
                  (some { bc2 with orphans := aerase bc2.orphans block.hash }) with
                | none => none
                | some bc4 => some (bc4, decide (bc.best_path_head.1 ≠ bc4.best_path_head.1))
    else some (bc, false)

/-- `Blockchain::add_transaction`: accept iff the signature validates and
the transaction is currently applicable against the live ledger; accepted
transactions enter the (deduplicated) buffer. -/
def Blockchain.add_transaction (bc : Blockchain) (t : Transaction) : Blockchain × Bool :=
  if t.sigOk && bc.ledger.is_transaction_possible t then
    ({ bc with transaction_buffer := bufInsert bc.transaction_buffer t }, true)
  else (bc, false)

/-- `Blockchain::stake`: "Simply checks if you've won" — delegates to
`is_winner` on the live ledger with the supplied draw and wallet. -/
def Blockchain.stake (bc : Blockchain) (draw : Draw) (wallet : Account) : Bool :=
  is_winner bc.ledger draw wallet

/-- `Blockchain::check_best_path`: the head's depth must index the last
level, that level must be nonempty, and when it holds several blocks the
`is_better_than` fold over them (initialised with the last value popped
off the collected vector) must end at the head. -/
def Blockchain.check_best_path (bc : Blockchain) : Bool :=
  let max_depth := bc.best_path_head.2
  if bc.blocks.length - 1 ≠ max_depth then false
  else
    let m := (bc.blocks.get? max_depth).getD []
    if m.isEmpty then false
    else if 1 < m.length then
      let vs := m.map Prod.snd
      match vs.getLast? with
      | none => false
      | some g0 =>
        let g := vs.dropLast.foldl
          (fun greatest b => if greatest.is_better_than b then greatest else b) g0
        decide ((g.hash, g.depth) = bc.best_path_head)
    else true

/-- The walk in `verify_chain` from the best-path head back to the genesis
pointer, accumulating the track stack; the accumulated list comes out in
genesis-to-head order, matching the source's pop order.  `none` models the
`unwrap` panic on a broken parent link (or fuel exhaustion). -/
def walkPath (bc : Blockchain) :
    Nat → (Hash × Nat) → (Hash × Nat) → List (Hash × Nat) → Option (List (Hash × Nat))
  | fuel, ptr, gen, acc =>
    if ptr = gen then some acc
    else
      match fuel with
      | 0 => none
      | fuel + 1 =>
        match bc.getBlock ptr.1 ptr.2 with
        | none => none
        | some b => walkPath bc fuel (b.prev_hash, ptr.2 - 1) gen (ptr :: acc)

/-- Modelled from the spec: `Block::verify_all` (`block.rs` is not in
`src/`; spec section 4.2): the block signature validates, the draw is
internally valid (its signature validates and it binds the block's
`(timeslot, prev_hash)`), and every contained transaction's signature
validates.  The `previous_transactions` argument the source passes is an
always-empty set and is dropped. -/
def Block.verify_all (b : Block) : Bool :=
  b.sigOk && b.draw.sigOk && decide (b.draw.prev_hash = b.prev_hash) &&
    decide (b.draw.timeslot = b.timeslot) && b.transactions.all (fun t => t.sigOk)

/-- Modelled from the spec: `Block::verify_genesis` — the genesis block has
depth 0 and its `prev_hash` is the seed hash over the root accounts
(as `Blockchain::start` computes it). -/
def Block.verify_genesis (b : Block) (root_accounts : List Account) : Bool :=
  decide (b.depth = 0) &&
    decide (b.prev_hash = sha256 (root_accounts.foldl (fun acc ra => acc ++ encodeAccount ra) []))

/-- The per-block body of the `verify_chain` track-stack loop: strictly
increasing timeslots, parent-hash linkage, byte-level verification, the
lottery against the reconstructed ledger, and clean application of every
transaction (the source's `iter().all` on `process_transaction`). -/
def verifyLoop (bc : Blockchain) :
    List (Hash × Nat) → Hash → Nat → Ledger → Option Ledger
  | [], _, _, ledger => some ledger
  | (h, d) :: rest, prevHash, prevTs, ledger =>
    match bc.getBlock h d with
    | none => none
    | some b =>
      if b.timeslot ≤ prevTs then none
      else if b.prev_hash ≠ prevHash then none
      else if ¬ b.verify_all then none
      else if ¬ is_winner ledger b.draw b.draw.signed_by then none
      else
        let folded := b.transactions.foldl
          (fun (p : Ledger × Bool) t =>
            let q := p.1.process_transaction t
            (q.1, p.2 && q.2)) (ledger, true)
        if ¬ folded.2 then none
        else verifyLoop bc rest h b.timeslot
          (folded.1.reward_winner b.draw.signed_by BLOCK_REWARD)

/-- `Blockchain::verify_chain`: check the best path, require exactly one
genesis block, walk the best path, replay it on a track ledger with all the
per-block checks, check the genesis block, and compare the track ledger to
the live one.  The paths on which the Rust code would panic (missing
blocks, broken parent links) return `false` here; no claim exercises
them. -/
def Blockchain.verify_chain (bc : Blockchain) : Bool :=
  if ¬ bc.check_best_path then false
  else
    match (bc.blocks.get? 0).getD [] with
    | [(gh, gblock)] =>
      match walkPath bc (bc.best_path_head.2 + 1) bc.best_path_head (gh, 0) [] with
      | none => false
      | some stack =>
        let track0 : Ledger :=
          bc.root_accounts.foldl (fun l ra => l.reward_winner ra ROOT_AMOUNT) ⟨[], []⟩
        match verifyLoop bc stack gh gblock.timeslot track0 with
        | none => false
        | some track =>
          if ¬ gblock.transactions.isEmpty then false
          else if ¬ gblock.verify_genesis bc.root_accounts then false
          else decide (bc.ledger = track)
    | _ => false

/-- The replay ledger of the specification (spec section 8, invariant 1 and
the claim): starting from the genesis allocation, apply every block on the
parent chain of the best-path tip in order — each block's transactions,
then `BLOCK_REWARD` to its producer. -/
def replayFold (bc : Blockchain) : List (Hash × Nat) → Ledger → Option Ledger
  | [], ledger => some ledger
  | (h, d) :: rest, ledger =>
    match bc.getBlock h d with
    | none => none
    | some b =>
      let l1 := b.transactions.foldl (fun l t => (l.process_transaction t).1) ledger
      replayFold bc rest (l1.reward_winner b.draw.signed_by BLOCK_REWARD)

/-- Replay from genesis along the current best path (the specification's
`replay_from_genesis(best_path)`). -/
def replay_from_genesis (bc : Blockchain) : Option Ledger :=
  match (bc.blocks.get? 0).getD [] with
  | [(gh, _)] =>
    match walkPath bc (bc.best_path_head.2 + 1) bc.best_path_head (gh, 0) [] with
    | none => none
    | some stack =>
      replayFold bc stack
        (bc.root_accounts.foldl (fun l ra => l.reward_winner ra ROOT_AMOUNT) ⟨[], []⟩)
  | _ => none

/-! ## Supporting lemmas -/

theorem alookup_ainsert_self {α β : Type} [DecidableEq α] (m : List (α × β)) (k : α) (v : β)
    (h : alookup m k = some v) : ainsert m k v = m := by
  induction m with
  | nil => simp [alookup] at h
  | cons p rest ih =>
    obtain ⟨a, w⟩ := p
    by_cases hk : a = k
    · subst hk
      simp [alookup] at h
      simp [ainsert, h]
    · simp [alookup, hk] at h
      simp [ainsert, hk, ih h]

theorem listModify_eq_self {α : Type} (f : α → α) (l : List α) (i : Nat)
    (h : ∀ x, l.get? i = some x → f x = x) : listModify f l i = l := by
  induction l generalizing i with
  | nil => simp [listModify]
  | cons x rest ih =>
    cases i with
    | zero => simp [listModify, h x (by simp)]
    | succ j =>
      simp [listModify]
      exact ih j (fun y hy => h y (by simpa using hy))

theorem padBlocks_eq_self (blocks : List (List (Hash × Block))) (target : Nat)
    (h : target ≤ blocks.length) : padBlocks blocks target = blocks := by
  simp [padBlocks, Nat.sub_eq_zero_of_le h]

/-! ## Claim C3 -/

/-- C3: for every ledger `L`, draw `D` and wallet `W`, `is_winner L D W` is
true iff `v * (H*T + b*(M - H)) > H*T*M` in exact integer arithmetic, where
`v = D.value`, `b = L.balance(W)`, `T = L.total_supply()`, `M = 2^256` and
`H = 10421 * 10^73`. -/
theorem c3_lottery_formula (l : Ledger) (d : Draw) (w : Account) :
    is_winner l d w = true ↔
      d.value * ((10421 * 10 ^ 73) * l.get_total_money_in_ledger
          + l.getBal w * (2 ^ 256 - 10421 * 10 ^ 73)) >
        (10421 * 10 ^ 73) * l.get_total_money_in_ledger * 2 ^ 256 := by
  simp [is_winner, gt_iff_lt]

/-! ## Claim C10 -/

/-- C10: the staking decision depends only on the draw's `value` (besides
the wallet and the engine's live ledger): two draws with equal `value` get
identical decisions regardless of their `timeslot`, `prev_hash`,
`signed_by` or signature — `stake` verifies no signature and does not bind
the draw to the current tip or timeslot. -/
theorem c10_stake_depends_only_on_value (bc : Blockchain) (d1 d2 : Draw) (w : Account)
    (h : d1.value = d2.value) : bc.stake d1 w = bc.stake d2 w := by
  simp [Blockchain.stake, is_winner, h]

def c10_draw1 : Draw :=
  { timeslot := 0, signed_by := 7, prev_hash := [9], value := 42, sigOk := false }

def c10_draw2 : Draw :=
  { timeslot := 5, signed_by := 8, prev_hash := [], value := 42, sigOk := true }

/-- Witness for `c10_stake_depends_only_on_value` at two concrete draws that
differ in every field but `value`. -/
theorem c10_witness :
    c10_draw1.value = c10_draw2.value ∧
      (Blockchain.start [0]).stake c10_draw1 0 = (Blockchain.start [0]).stake c10_draw2 0 :=
  ⟨by decide,
   c10_stake_depends_only_on_value (Blockchain.start [0]) c10_draw1 c10_draw2 0 (by decide)⟩

/-! ## Claim C4 -/

def c4_draw : Draw :=
  { timeslot := 0, signed_by := 1, prev_hash := [], value := 2 ^ 256 - 1, sigOk := true }

/-- C4 counterexample: `stake` does not enforce that the claimed wallet
equals the draw's signer.  On the engine started with root account `0`,
a draw signed by account `1` still yields a win for wallet `0 ≠ 1`
(balance 300 of 300 total, draw value `2^256 - 1`). -/
theorem c4_counterexample :
    (Blockchain.start [0]).stake c4_draw 0 = true ∧ (0 : Account) ≠ c4_draw.signed_by := by
  constructor
  · decide
  · decide

/-- C4 amended: the staking check does not consult `D.signed_by` at all —
the win decision is computed for the supplied wallet `W` whatever the
draw's signer is (so wallets different from the signer can win; no
equality between `W` and `D.signed_by` is enforced anywhere). -/
theorem c4_stake_ignores_signer (bc : Blockchain) (d : Draw) (s w : Account) :
    bc.stake { d with signed_by := s } w = bc.stake d w := rfl

/-! ## Claim C5 -/

/-- C5 counterexample: the genesis seed hash is computed over the root
accounts in the order supplied, not in sorted order.  For supplied order
`[2, 1]` the genesis `prev_hash` differs from the hash of the sorted
concatenation `[1, 2]`, and supplying the same accounts in the two orders
yields different genesis `prev_hash`es. -/
theorem c5_counterexample :
    (genesisBlock [2, 1]).prev_hash ≠ sha256 (encodeAccount 1 ++ encodeAccount 2) ∧
      (genesisBlock [2, 1]).prev_hash ≠ (genesisBlock [1, 2]).prev_hash := by
  decide

/-- C5 amended: the genesis block produced by `start(root_accounts, sk)`
has depth 0, an empty transaction list, and `prev_hash` equal to SHA-256 of
the concatenated canonical encodings of the root-account public keys *in
the order supplied* (the source does not sort them, so the hash depends on
the supplied order). -/
theorem c5_genesis_fields (roots : List Account) :
    (Blockchain.start roots).blocks = [[((genesisBlock roots).hash, genesisBlock roots)]] ∧
      (genesisBlock roots).depth = 0 ∧
      (genesisBlock roots).transactions = [] ∧
      (genesisBlock roots).prev_hash =
        sha256 (roots.foldl (fun acc ra => acc ++ encodeAccount ra) []) :=
  ⟨rfl, rfl, rfl, rfl⟩

/-! ## Claim C1 -/

def c1_blockA : Block :=
  { timeslot := 1, prev_hash := [0, 1, 2], depth := 1, transactions := [],
    draw := { timeslot := 1, signed_by := 1, prev_hash := [0, 1, 2],
              value := 2 ^ 256 - 2, sigOk := true },
    hash := [10], sigOk := true }

def c1_blockB : Block :=
  { timeslot := 1, prev_hash := [0, 1, 2], depth := 1, transactions := [],
    draw := { timeslot := 1, signed_by := 2, prev_hash := [0, 1, 2],
              value := 2 ^ 256 - 1, sigOk := true },
    hash := [11], sigOk := true }

/-- Start from roots `[1, 2]`, admit `c1_blockA` (depth 1, producer 1),
then `c1_blockB` (depth 1, producer 2, better draw) which triggers the
equal-depth fork switch and its rollback. -/
def c1_final : Option Blockchain :=
  (Blockchain.add_block 1 1 (Blockchain.start [1, 2]) c1_blockA).bind
    (fun p => (Blockchain.add_block 1 1 p.1 c1_blockB).map Prod.fst)

set_option maxHeartbeats 2000000 in
/-- C1 fails on the code: after the fork switch the live ledger still
credits the abandoned block's producer (account 1 holds 350) and has
debited-then-recredited the new tip's producer (account 2 holds 300),
while replaying the best path from genesis gives 300 and 350 — the
rollback undid the reward of the *new* branch's depth-1 block instead of
the abandoned one's.  The code's own audit `verify_chain` consequently
returns `false` on the state its own `add_block` produced. -/
theorem c1_ledger_replay_mismatch :
    c1_final.map (fun s => (s.ledger.getBal 1, s.ledger.getBal 2,
        (replay_from_genesis s).map (fun l => (l.getBal 1, l.getBal 2)),
        s.verify_chain))
      = some (350, 300, some (300, 350), false) := by
  decide

/-! ## Claim C2 -/

def c2_t12 : Transaction := { from_ := 3, to_ := 1, amount := 10, timeslot := 5, sigOk := true }

def c2_g : Block := genesisBlock [1, 2, 3]

def c2_b1_1 : Block :=
  { timeslot := 1, prev_hash := [0, 1, 2, 3], depth := 1, transactions := [],
    draw := { timeslot := 1, signed_by := 1, prev_hash := [0, 1, 2, 3], value := 5, sigOk := true },
    hash := [21], sigOk := true }

def c2_b1_2 : Block :=
  { timeslot := 2, prev_hash := [21], depth := 2, transactions := [c2_t12],
    draw := { timeslot := 2, signed_by := 1, prev_hash := [21], value := 5, sigOk := true },
    hash := [22], sigOk := true }

def c2_b2_1 : Block :=
  { timeslot := 1, prev_hash := [0, 1, 2, 3], depth := 1, transactions := [],
    draw := { timeslot := 1, signed_by := 2, prev_hash := [0, 1, 2, 3], value := 6, sigOk := true },
    hash := [31], sigOk := true }

def c2_b2_2 : Block :=
  { timeslot := 3, prev_hash := [31], depth := 2, transactions := [],
    draw := { timeslot := 3, signed_by := 2, prev_hash := [31], value := 7, sigOk := true },
    hash := [32], sigOk := true }

/-- A two-branch tree over roots `[1, 2, 3]`: the abandoned branch
`c2_b1_1 → c2_b1_2` (producer 1, `c2_t12` applied in `c2_b1_2`) is the
current best path; the adopted branch is `c2_b2_1 → c2_b2_2` (producer 2).
The ledger reflects the `b1` branch. -/
def c2_bc : Blockchain :=
  { blocks := [[([0, 1, 2, 3], c2_g)], [([21], c2_b1_1), ([31], c2_b2_1)],
               [([22], c2_b1_2), ([32], c2_b2_2)]],
    best_path_head := ([22], 2),
    ledger := ⟨[(1, 410), (2, 300), (3, 289)], [(3, [5])]⟩,
    root_accounts := [1, 2, 3],
    orphans := [], transaction_buffer := [] }

/-- C2 fails on the code: rewinding from `c2_b1_2` to `c2_b2_2` should undo
each abandoned block's own producer reward and return its transactions to
the mempool.  Instead the source's general equal-depth step debits the
*to*-branch parent's producer (account 2 is debited twice, account 1 — the
abandoned branch's producer — keeps both rewards: 400 instead of 300,
while account 2 ends at 300 instead of 400), and the abandoned transaction
`c2_t12` is rolled back without being re-added to the mempool (only the
depth-1 special case re-adds).  The claim's expected outcome is
`(true, 300, 400, 300)`. -/
theorem c2_rollback_drops_rewards_and_mempool :
    (c2_bc.rollback ([22], 2) ([32], 2)).map (fun s =>
        (decide (c2_t12 ∈ s.transaction_buffer),
         s.ledger.getBal 1, s.ledger.getBal 2, s.ledger.getBal 3))
      = some (false, 400, 300, 300) := by
  decide

/-! ## Claim C6 -/

/-- C6: when the parent of `b` is present, `add_block` rejects `b` whenever
`b.timeslot ≤ parent.timeslot` (equality included) or `b.timeslot` exceeds
the current timeslot: the call returns `false` and the whole state —
ledger, block tree, tip, mempool, orphan index — is exactly the input
state. -/
theorem c6_timeslot_rejection (fuel now : Nat) (bc : Blockchain) (b parent : Block)
    (hp : bc.getParent b = some parent)
    (ht : b.timeslot ≤ parent.timeslot ∨ now < b.timeslot) :
    Blockchain.add_block fuel now bc b = some (bc, false) := by
  unfold Blockchain.add_block
  cases hs : b.sigOk with
  | false => simp [hs]
  | true => simp [hs, hp, ht]

def c6_block : Block :=
  { timeslot := 0, prev_hash := [0, 1], depth := 1, transactions := [],
    draw := { timeslot := 0, signed_by := 1, prev_hash := [0, 1], value := 0, sigOk := true },
    hash := [12], sigOk := true }

/-- Witness for `c6_timeslot_rejection`: a child of the genesis of
`start [1]` with `timeslot = 0`, equal to its parent's, is rejected. -/
theorem c6_witness :
    Blockchain.add_block 1 5 (Blockchain.start [1]) c6_block
      = some (Blockchain.start [1], false) :=
  c6_timeslot_rejection 1 5 (Blockchain.start [1]) c6_block (genesisBlock [1])
    (by decide) (by decide)

/-! ## Claim C7 -/

def c7_bad : Block :=
  { timeslot := 1, prev_hash := [9], depth := 2, transactions := [],
    draw := { timeslot := 1, signed_by := 1, prev_hash := [9], value := 0, sigOk := true },
    hash := [13], sigOk := false }

/-- C7 counterexample: a block whose parent is absent is *not* always
parked — the signature check precedes the parent lookup, so a block that
fails byte-level verification is rejected without entering the orphan
index: here the parent is absent, yet after the call the orphan index has
no entry under the block's `prev_hash`. -/
theorem c7_counterexample :
    (Blockchain.start [1]).getParent c7_bad = none ∧
      (Blockchain.add_block 1 5 (Blockchain.start [1]) c7_bad).map
        (fun p => alookup p.1.orphans c7_bad.prev_hash) = some none := by
  decide

/-- C7 amended: for every block `b` that passes byte-level signature
verification and whose parent is absent, `add_block` appends `b` to the
orphan index under `b.prev_hash` and leaves the ledger, block tree,
best-path tip and mempool unchanged, reporting no tip change. -/
theorem c7_orphan_parking (fuel now : Nat) (bc : Blockchain) (b : Block)
    (hs : b.sigOk = true) (hp : bc.getParent b = none) :
    Blockchain.add_block fuel now bc b =
      some ({ bc with orphans := orphanInsert bc.orphans b.prev_hash b }, false) := by
  unfold Blockchain.add_block
  simp [hs, hp]

def c7_block : Block :=
  { timeslot := 1, prev_hash := [9], depth := 2, transactions := [],
    draw := { timeslot := 1, signed_by := 1, prev_hash := [9], value := 0, sigOk := true },
    hash := [14], sigOk := true }

/-- Witness for `c7_orphan_parking`: a depth-2 block over an unknown parent
hash is parked on the freshly started engine. -/
theorem c7_witness :
    Blockchain.add_block 1 5 (Blockchain.start [1]) c7_block
      = some ({ Blockchain.start [1] with
                  orphans := orphanInsert (Blockchain.start [1]).orphans c7_block.prev_hash
                    c7_block }, false) :=
  c7_orphan_parking 1 5 (Blockchain.start [1]) c7_block rfl (by decide)

/-! ## Claim C9 -/

def c9_t : Transaction := { from_ := 1, to_ := 1, amount := 0, timeslot := 0, sigOk := true }

def c9_b : Block :=
  { timeslot := 1, prev_hash := [0, 1], depth := 1, transactions := [c9_t],
    draw := { timeslot := 1, signed_by := 1, prev_hash := [0, 1], value := 3, sigOk := true },
    hash := [10], sigOk := true }

/-- An engine state in which `c9_b` is the tip and its transaction `c9_t`
is (again) in the mempool — as happens whenever a fork switch returned it
there. -/
def c9_bc : Blockchain :=
  { blocks := [[([0, 1], genesisBlock [1])], [([10], c9_b)]],
    best_path_head := ([10], 1),
    ledger := ⟨[(1, 349)], [(1, [0])]⟩,
    root_accounts := [1],
    orphans := [], transaction_buffer := [c9_t] }

/-- C9 counterexample: resubmitting a block that is already in the block
tree is *not* a no-op — `add_block` unconditionally strips the block's
transactions from the mempool again, so the resulting state differs from
the input state whenever the mempool holds one of them. -/
theorem c9_counterexample :
    alookup ((c9_bc.blocks.get? c9_b.depth).getD []) c9_b.hash = some c9_b ∧
      (Blockchain.add_block 1 5 c9_bc c9_b).map (fun p => p.1.transaction_buffer)
        = some [] ∧
      c9_bc.transaction_buffer ≠ [] := by
  decide

/-- C9 amended: resubmitting a block `b` that is already present in the
block tree returns `false` and leaves the ledger, block tree, best-path
tip and orphan index unchanged, but removes `b`'s transactions from the
mempool (everything else about the state is preserved).  The hypotheses
spell out what holds for any reachable state in which `b` was previously
admitted: `b` is stored at its depth, its level exists, its parent is
present, its timeslot was admissible, the tip is at least as deep as `b`
and not beaten by it, and `b`'s orphans were already drained. -/
theorem c9_resubmission (fuel now : Nat) (bc : Blockchain) (b parent tipB : Block)
    (hb : alookup ((bc.blocks.get? b.depth).getD []) b.hash = some b)
    (hlen : b.depth + 1 ≤ bc.blocks.length)
    (hs : b.sigOk = true)
    (hp : bc.getParent b = some parent)
    (ht : ¬ (b.timeslot ≤ parent.timeslot ∨ now < b.timeslot))
    (hd : b.depth ≤ bc.best_path_head.2)
    (hcur : bc.getBlock bc.best_path_head.1 bc.best_path_head.2 = some tipB)
    (htip : b.is_better_than tipB = false)
    (ho : alookup bc.orphans b.hash = none) :
    Blockchain.add_block fuel now bc b =
      some ({ bc with transaction_buffer := bufRemoveAll bc.transaction_buffer b.transactions },
        false) := by
  have hblocks :
      listModify (fun m => ainsert m b.hash b) (padBlocks bc.blocks (b.depth + 1)) b.depth
        = bc.blocks := by
    rw [padBlocks_eq_self bc.blocks (b.depth + 1) hlen]
    refine listModify_eq_self _ _ _ (fun m hm => ?_)
    have : alookup m b.hash = some b := by
      have := hb
      rw [hm] at this
      simpa using this
    exact alookup_ainsert_self m b.hash b this
  have hins : insertBlock bc b =
      { bc with transaction_buffer := bufRemoveAll bc.transaction_buffer b.transactions } := by
    simp [insertBlock, hblocks]
  have hnotlt : ¬ bc.best_path_head.2 < b.depth := Nat.not_lt.mpr hd
  have hfc : forkChoice
      { bc with transaction_buffer := bufRemoveAll bc.transaction_buffer b.transactions }
      bc.best_path_head b =
      some { bc with transaction_buffer := bufRemoveAll bc.transaction_buffer b.transactions } := by
    by_cases heq : b.depth = bc.best_path_head.2
    · have hget :
          Blockchain.getBlock
            { bc with transaction_buffer := bufRemoveAll bc.transaction_buffer b.transactions }
            bc.best_path_head.1 bc.best_path_head.2 = some tipB := hcur
      simp [forkChoice, hnotlt, heq, hget, htip]
    · simp [forkChoice, hnotlt, heq]
  unfold Blockchain.add_block
  simp [hs, hp, ht, hins, hfc, ho]

/-- Witness for `c9_resubmission` at the concrete state `c9_bc`: only the
mempool changes (it loses `c9_t`). -/
theorem c9_witness :
    Blockchain.add_block 1 5 c9_bc c9_b =
      some ({ c9_bc with
                transaction_buffer := bufRemoveAll c9_bc.transaction_buffer c9_b.transactions },
        false) :=
  c9_resubmission 1 5 c9_bc c9_b (genesisBlock [1]) c9_b
    (by decide) (by decide) rfl (by decide) (by decide) (by decide) (by decide) (by decide)
    (by decide)

/-! ## Claim C8: order lemmas for the tie-break -/

theorem hashLexLt_irrefl (a : List Nat) : hashLexLt a a = false := by
  induction a with
  | nil => rfl
  | cons x as ih => simp [hashLexLt, ih]

theorem hashLexLt_trans {a b c : List Nat} (h1 : hashLexLt a b = true)
    (h2 : hashLexLt b c = true) : hashLexLt a c = true := by
  induction a generalizing b c with
  | nil =>
    cases b with
    | nil => simp [hashLexLt] at h1
    | cons y bs =>
      cases c with
      | nil => simp [hashLexLt] at h2
      | cons z cs => simp [hashLexLt]
  | cons x as ih =>
    cases b with
    | nil => simp [hashLexLt] at h1
    | cons y bs =>
      cases c with
      | nil => simp [hashLexLt] at h2
      | cons z cs =>
        by_cases hxy : x < y
        · by_cases hyz : y < z
          · simp [hashLexLt, Nat.lt_trans hxy hyz]
          · by_cases hzy : z < y
            · simp [hashLexLt, hyz, hzy] at h2
            · have hyzeq : y = z := Nat.le_antisymm (Nat.le_of_not_lt hzy) (Nat.le_of_not_lt hyz)
              subst hyzeq
              simp [hashLexLt, hxy]
        · by_cases hyx : y < x
          · simp [hashLexLt, hxy, hyx] at h1
          · have hxyeq : x = y := Nat.le_antisymm (Nat.le_of_not_lt hyx) (Nat.le_of_not_lt hxy)
            subst hxyeq
            simp [hashLexLt, hxy] at h1
            by_cases hxz : x < z
            · simp [hashLexLt, hxz]
            · by_cases hzx : z < x
              · simp [hashLexLt, hxz, hzx] at h2
              · have hxzeq : x = z := Nat.le_antisymm (Nat.le_of_not_lt hzx) (Nat.le_of_not_lt hxz)
                subst hxzeq
                simp [hashLexLt, hxz] at h2
                simp [hashLexLt, hxz, ih h1 h2]

theorem hashLexLt_total {a b : List Nat} (h : a ≠ b) :
    hashLexLt a b = true ∨ hashLexLt b a = true := by
  induction a generalizing b with
  | nil =>
    cases b with
    | nil => exact absurd rfl h
    | cons y bs => left; simp [hashLexLt]
  | cons x as ih =>
    cases b with
    | nil => right; simp [hashLexLt]
    | cons y bs =>
      by_cases hxy : x < y
      · left; simp [hashLexLt, hxy]
      · by_cases hyx : y < x
        · right; simp [hashLexLt, hyx]
        · have hxyeq : x = y := Nat.le_antisymm (Nat.le_of_not_lt hyx) (Nat.le_of_not_lt hxy)
          subst hxyeq
          have hne : as ≠ bs := fun hh => h (by rw [hh])
          rcases ih hne with h1 | h1
          · left; simp [hashLexLt, hxy, h1]
          · right; simp [hashLexLt, hxy, h1]

theorem ibt_iff {a b : Block} :
    a.is_better_than b = true ↔
      (b.draw.value < a.draw.value ∨
        (a.draw.value = b.draw.value ∧ hashLexLt b.hash a.hash = true)) := by
  unfold Block.is_better_than
  by_cases h1 : b.draw.value < a.draw.value
  · simp [h1]
  · by_cases h2 : a.draw.value < b.draw.value
    · simp [h1, h2, Nat.ne_of_lt h2]
    · have heq : a.draw.value = b.draw.value :=
        Nat.le_antisymm (Nat.le_of_not_lt h1) (Nat.le_of_not_lt h2)
      simp [h1, h2, heq]

theorem ibt_irrefl (b : Block) : b.is_better_than b = false := by
  unfold Block.is_better_than
  simp [hashLexLt_irrefl]

theorem ibt_trans {a b c : Block} (h1 : a.is_better_than b = true)
    (h2 : b.is_better_than c = true) : a.is_better_than c = true := by
  rw [ibt_iff] at h1 h2 ⊢
  rcases h1 with h1 | ⟨h1e, h1l⟩ <;> rcases h2 with h2 | ⟨h2e, h2l⟩
  · exact Or.inl (Nat.lt_trans h2 h1)
  · exact Or.inl (h2e ▸ h1)
  · exact Or.inl (by rw [h1e]; exact h2)
  · exact Or.inr ⟨h1e.trans h2e, hashLexLt_trans h2l h1l⟩

theorem ibt_total {a b : Block} (h : a.hash ≠ b.hash) :
    a.is_better_than b = true ∨ b.is_better_than a = true := by
  rcases Nat.lt_trichotomy a.draw.value b.draw.value with hv | hv | hv
  · right; rw [ibt_iff]; exact Or.inl hv
  · rcases hashLexLt_total (show b.hash ≠ a.hash from fun hh => h hh.symm) with hl | hl
    · left; rw [ibt_iff]; exact Or.inr ⟨hv, hl⟩
    · right; rw [ibt_iff]; exact Or.inr ⟨hv.symm, hl⟩
  · left; rw [ibt_iff]; exact Or.inl hv

/-! ## Claim C8: association-list and list lemmas -/

theorem mem_of_alookup {α β : Type} [DecidableEq α] {m : List (α × β)} {k : α} {v : β}
    (h : alookup m k = some v) : (k, v) ∈ m := by
  induction m with
  | nil => simp [alookup] at h
  | cons p rest ih =>
    obtain ⟨a, w⟩ := p
    by_cases hk : a = k
    · subst hk
      simp [alookup] at h
      simp [h]
    · simp [alookup, hk] at h
      simp [ih h]

theorem mem_ainsert_sub {α β : Type} [DecidableEq α] {m : List (α × β)} {k : α} {v : β}
    {p : α × β} (h : p ∈ ainsert m k v) : p = (k, v) ∨ p ∈ m := by
  induction m with
  | nil => simpa [ainsert] using h
  | cons q rest ih =>
    obtain ⟨a, w⟩ := q
    by_cases hk : a = k
    · subst hk
      simp [ainsert] at h
      rcases h with h | h
      · left; simp [h]
      · right; simp [h]
    · simp [ainsert, hk] at h
      rcases h with h | h
      · right; simp [h]
      · rcases ih h with h' | h'
        · left; exact h'
        · right; simp [h']

theorem alookup_ainsert {α β : Type} [DecidableEq α] (m : List (α × β)) (k : α) (v : β)
    (c : α) : alookup (ainsert m k v) c = if k = c then some v else alookup m c := by
  induction m with
  | nil => simp [ainsert, alookup]
  | cons q rest ih =>
    obtain ⟨b, w⟩ := q
    by_cases hk : b = k
    · subst hk
      by_cases hbc : b = c
      · subst hbc
        simp [ainsert, alookup]
      · simp [ainsert, alookup, hbc, fun hh => hbc hh]
    · simp only [ainsert, if_neg hk]
      by_cases hbc : b = c
      · subst hbc
        have hkc : ¬ k = b := fun hh => hk hh.symm
        simp [alookup, hkc]
      · simp [alookup, hbc, ih]

theorem mem_aerase {α β : Type} [DecidableEq α] {m : List (α × β)} {k : α} {p : α × β}
    (h : p ∈ aerase m k) : p ∈ m := by
  induction m with
  | nil => simpa [aerase] using h
  | cons q rest ih =>
    obtain ⟨a, w⟩ := q
    by_cases hk : a = k
    · subst hk
      simp [aerase] at h
      simp [h]
    · simp [aerase, hk] at h
      rcases h with h | h
      · simp [h]
      · simp [ih h]

theorem listModify_length {α : Type} (f : α → α) (l : List α) (i : Nat) :
    (listModify f l i).length = l.length := by
  induction l generalizing i with
  | nil => simp [listModify]
  | cons x rest ih =>
    cases i with
    | zero => simp [listModify]
    | succ j => simp [listModify, ih]

theorem listModify_get? {α : Type} (f : α → α) (l : List α) (i j : Nat) :
    (listModify f l i).get? j = if i = j then (l.get? i).map f else l.get? j := by
  induction l generalizing i j with
  | nil => simp [listModify]
  | cons x rest ih =>
    cases i with
    | zero =>
      cases j with
      | zero => simp [listModify]
      | succ j' => simp [listModify]
    | succ i' =>
      cases j with
      | zero => simp [listModify]
      | succ j' => simpa [listModify] using ih i' j'

theorem mem_listModify {α : Type} {f : α → α} {l : List α} {i : Nat} {y : α}
    (h : y ∈ listModify f l i) : y ∈ l ∨ ∃ x, l.get? i = some x ∧ y = f x := by
  induction l generalizing i with
  | nil => simp [listModify] at h
  | cons x rest ih =>
    cases i with
    | zero =>
      simp [listModify] at h
      rcases h with h | h
      · right; exact ⟨x, by simp, h⟩
      · left; simp [h]
    | succ j =>
      simp [listModify] at h
      rcases h with h | h
      · left; simp [h]
      · rcases ih h with h' | ⟨z, hz, hy⟩
        · left; simp [h']
        · right; exact ⟨z, by simpa using hz, hy⟩

theorem padBlocks_append_one (blocks : List (List (Hash × Block)))
    (h : blocks.length = t) : padBlocks blocks (t + 1) = blocks ++ [[]] := by
  subst h
  simp [padBlocks, Nat.succ_sub, List.replicate]

theorem listModify_append_last {α : Type} (f : α → α) (l : List α) (x : α) :
    listModify f (l ++ [x]) l.length = l ++ [f x] := by
  induction l with
  | nil => simp [listModify]
  | cons y rest ih => simp [listModify, ih]

/-! ## Claim C8: invariants -/

/-- The block map at a given depth of the level vector. -/
def blocksAt (bc : Blockchain) (i : Nat) : List (Hash × Block) :=
  (bc.blocks.get? i).getD []

/-- Every stored block sits at the level matching its `depth` field under
the key matching its `hash` field. -/
def Coherent (bc : Blockchain) : Prop :=
  ∀ i, i < bc.blocks.length → ∀ p ∈ blocksAt bc i, p.2.depth = i ∧ p.2.hash = p.1

/-- The claim's tip property, witnessed by the stored tip block: the level
vector ends exactly at the tip's depth (so the tip is depth-maximal), the
tip is stored under the head pointer, and it `is_better_than` every other
block at that maximal depth. -/
def TipMaxAt (bc : Blockchain) (tipB : Block) : Prop :=
  bc.blocks.length = bc.best_path_head.2 + 1 ∧
    alookup (blocksAt bc bc.best_path_head.2) bc.best_path_head.1 = some tipB ∧
    ∀ p ∈ blocksAt bc bc.best_path_head.2, p.1 ≠ bc.best_path_head.1 →
      tipB.is_better_than p.2 = true

/-- The tip is depth-maximal and `is_better_than`-maximal at its depth. -/
def TipMax (bc : Blockchain) : Prop := ∃ tipB, TipMaxAt bc tipB

/-- All blocks stored in a level vector. -/
def levelVals (ls : List (List (Hash × Block))) : List Block :=
  (ls.map (fun m => m.map Prod.snd)).join

/-- All blocks stored in an orphan index. -/
def orphVals (os : List (Hash × List Block)) : List Block :=
  (os.map Prod.snd).join

/-- Every block the engine holds: block tree plus orphan index. -/
def poolBlocks (bc : Blockchain) : List Block :=
  levelVals bc.blocks ++ orphVals bc.orphans

/-- Hash-injectivity over a set of blocks: the collision-free idealization
of SHA-256 block hashes. -/
def HashInj (l : List Block) : Prop :=
  ∀ x ∈ l, ∀ y ∈ l, x.hash = y.hash → x = y

theorem hashInj_mono {l L : List Block} (hsub : ∀ x ∈ l, x ∈ L) (h : HashInj L) :
    HashInj l := fun x hx y hy hxy => h x (hsub x hx) y (hsub y hy) hxy

theorem mem_levelVals {ls : List (List (Hash × Block))} {x : Block} :
    x ∈ levelVals ls ↔ ∃ m, m ∈ ls ∧ ∃ p, p ∈ m ∧ p.2 = x := by
  simp only [levelVals, List.mem_join, List.mem_map]
  constructor
  · rintro ⟨vals, ⟨m, hm, rfl⟩, hx⟩
    rcases List.mem_map.mp hx with ⟨p, hp, rfl⟩
    exact ⟨m, hm, p, hp, rfl⟩
  · rintro ⟨m, hm, p, hp, rfl⟩
    exact ⟨m.map Prod.snd, ⟨m, hm, rfl⟩, List.mem_map.mpr ⟨p, hp, rfl⟩⟩

theorem mem_orphVals {os : List (Hash × List Block)} {x : Block} :
    x ∈ orphVals os ↔ ∃ p, p ∈ os ∧ x ∈ p.2 := by
  simp only [orphVals, List.mem_join, List.mem_map]
  constructor
  · rintro ⟨l, ⟨p, hp, rfl⟩, hx⟩
    exact ⟨p, hp, hx⟩
  · rintro ⟨p, hp, hx⟩
    exact ⟨p.2, ⟨p, hp, rfl⟩, hx⟩

theorem mem_orphVals_orphanInsert {os : List (Hash × List Block)} {prev : Hash} {b x : Block}
    (h : x ∈ orphVals (orphanInsert os prev b)) : x = b ∨ x ∈ orphVals os := by
  unfold orphanInsert at h
  rcases hl : alookup os prev with _ | l
  · rw [hl] at h
    rcases mem_orphVals.mp h with ⟨p, hp, hx⟩
    rcases List.mem_append.mp hp with hp | hp
    · exact Or.inr (mem_orphVals.mpr ⟨p, hp, hx⟩)
    · simp at hp
      subst hp
      simp at hx
      exact Or.inl hx
  · rw [hl] at h
    rcases mem_orphVals.mp h with ⟨p, hp, hx⟩
    rcases mem_ainsert_sub hp with hp | hp
    · subst hp
      simp at hx
      rcases hx with hx | hx
      · exact Or.inr (mem_orphVals.mpr ⟨(prev, l), mem_of_alookup hl, hx⟩)
      · exact Or.inl hx
    · exact Or.inr (mem_orphVals.mpr ⟨p, hp, hx⟩)

theorem mem_orphVals_aerase {os : List (Hash × List Block)} {k : Hash} {x : Block}
    (h : x ∈ orphVals (aerase os k)) : x ∈ orphVals os := by
  rcases mem_orphVals.mp h with ⟨p, hp, hx⟩
  exact mem_orphVals.mpr ⟨p, mem_aerase hp, hx⟩

theorem alookup_orphVals {os : List (Hash × List Block)} {k : Hash} {l : List Block}
    (h : alookup os k = some l) : ∀ x ∈ l, x ∈ orphVals os := fun x hx =>
  mem_orphVals.mpr ⟨(k, l), mem_of_alookup h, hx⟩

/-- `rollback` only touches the ledger and the transaction buffer. -/
theorem rollback_frame {bc : Blockchain} {fro tgt : Hash × Nat} {bc' : Blockchain}
    (h : bc.rollback fro tgt = some bc') :
    bc'.blocks = bc.blocks ∧ bc'.best_path_head = bc.best_path_head ∧
      bc'.orphans = bc.orphans := by
  unfold Blockchain.rollback at h
  repeat' split at h
  any_goals exact Option.noConfusion h
  all_goals
    injection h with h'
    subst h'
    exact ⟨rfl, rfl, rfl⟩

/-- Case analysis of the fork-choice stage: it never touches the block tree
or the orphan index, and the head either moves to the new block (deeper, or
equal depth and better) or stays. -/
theorem forkChoice_cases {bc1 : Blockchain} {old : Hash × Nat} {b : Block} {bc2 : Blockchain}
    (h : forkChoice bc1 old b = some bc2) :
    bc2.blocks = bc1.blocks ∧ bc2.orphans = bc1.orphans ∧
      ((old.2 < b.depth ∧ bc2.best_path_head = (b.hash, b.depth)) ∨
        (¬ old.2 < b.depth ∧ b.depth = old.2 ∧
          ∃ curr, bc1.getBlock old.1 old.2 = some curr ∧
            ((b.is_better_than curr = true ∧ bc2.best_path_head = (b.hash, b.depth)) ∨
              (b.is_better_than curr = false ∧ bc2 = bc1))) ∨
        (¬ old.2 < b.depth ∧ b.depth ≠ old.2 ∧ bc2 = bc1)) := by
  unfold forkChoice at h
  by_cases h1 : old.2 < b.depth
  · rw [if_pos h1] at h
    by_cases h2 : old.1 ≠ b.prev_hash
    · rw [if_pos h2] at h
      obtain ⟨hb, hh, ho⟩ := rollback_frame h
      exact ⟨hb, ho, Or.inl ⟨h1, hh⟩⟩
    · rw [if_neg h2] at h
      simp only [Option.some.injEq] at h
      subst h
      exact ⟨rfl, rfl, Or.inl ⟨h1, rfl⟩⟩
  · rw [if_neg h1] at h
    by_cases h2 : b.depth = old.2
    · rw [if_pos h2] at h
      split at h
      · exact Option.noConfusion h
      · rename_i curr hg
        by_cases hbt : b.is_better_than curr = true
        · rw [if_pos hbt] at h
          obtain ⟨hb, hh, ho⟩ := rollback_frame h
          exact ⟨hb, ho, Or.inr (Or.inl ⟨h1, h2, curr, hg, Or.inl ⟨hbt, hh⟩⟩)⟩
        · rw [if_neg hbt] at h
          simp only [Option.some.injEq] at h
          subst h
          exact ⟨rfl, rfl,
            Or.inr (Or.inl ⟨h1, h2, curr, hg, Or.inr ⟨Bool.eq_false_iff.mpr hbt, rfl⟩⟩)⟩
    · rw [if_neg h2] at h
      simp only [Option.some.injEq] at h
      subst h
      exact ⟨rfl, rfl, Or.inr (Or.inr ⟨h1, h2, rfl⟩)⟩

theorem insert_blocksAt_same {bc : Blockchain} {b : Block}
    (hdle : b.depth ≤ bc.blocks.length) :
    ((insertBlock bc b).blocks.get? b.depth).getD [] =
      ainsert ((bc.blocks.get? b.depth).getD []) b.hash b := by
  rcases Nat.lt_or_ge b.depth bc.blocks.length with hlt | hge
  · have hpad : padBlocks bc.blocks (b.depth + 1) = bc.blocks :=
      padBlocks_eq_self _ _ (by omega)
    show ((listModify (fun m => ainsert m b.hash b)
        (padBlocks bc.blocks (b.depth + 1)) b.depth).get? b.depth).getD [] = _
    rw [hpad, listModify_get?, if_pos rfl]
    rcases hg : bc.blocks.get? b.depth with _ | m0
    · rw [List.get?_eq_none] at hg
      omega
    · simp
  · have heq : b.depth = bc.blocks.length := Nat.le_antisymm hdle hge
    show ((listModify (fun m => ainsert m b.hash b)
        (padBlocks bc.blocks (b.depth + 1)) b.depth).get? b.depth).getD [] = _
    rw [padBlocks_append_one bc.blocks heq.symm]
    have h2 : listModify (fun m => ainsert m b.hash b) (bc.blocks ++ [[]]) b.depth
        = bc.blocks ++ [ainsert [] b.hash b] := by
      rw [heq]
      exact listModify_append_last _ _ _
    rw [h2, heq, List.get?_concat_length]
    have : bc.blocks.get? bc.blocks.length = none :=
      List.get?_eq_none.mpr (Nat.le_refl _)
    rw [this]
    simp [ainsert]

theorem insert_blocksAt_other {bc : Blockchain} {b : Block} (j : Nat)
    (hne : j ≠ b.depth) (hdle : b.depth ≤ bc.blocks.length) :
    ((insertBlock bc b).blocks.get? j).getD [] = (bc.blocks.get? j).getD [] := by
  rcases Nat.lt_or_ge b.depth bc.blocks.length with hlt | hge
  · have hpad : padBlocks bc.blocks (b.depth + 1) = bc.blocks :=
      padBlocks_eq_self _ _ (by omega)
    show ((listModify (fun m => ainsert m b.hash b)
        (padBlocks bc.blocks (b.depth + 1)) b.depth).get? j).getD [] = _
    rw [hpad, listModify_get?, if_neg (fun hh => hne hh.symm)]
  · have heq : b.depth = bc.blocks.length := Nat.le_antisymm hdle hge
    show ((listModify (fun m => ainsert m b.hash b)
        (padBlocks bc.blocks (b.depth + 1)) b.depth).get? j).getD [] = _
    rw [padBlocks_append_one bc.blocks heq.symm]
    have h2 : listModify (fun m => ainsert m b.hash b) (bc.blocks ++ [[]]) b.depth
        = bc.blocks ++ [ainsert [] b.hash b] := by
      rw [heq]
      exact listModify_append_last _ _ _
    rw [h2]
    rcases Nat.lt_or_ge j bc.blocks.length with hj | hj
    · rw [List.get?_append hj]
    · have hj2 : bc.blocks.length < j := by omega
      have hl : (bc.blocks ++ [ainsert [] b.hash b]).get? j = none :=
        List.get?_eq_none.mpr (by simp; omega)
      have hr : bc.blocks.get? j = none := List.get?_eq_none.mpr (by omega)
      rw [hl, hr]

theorem insert_blocks_length {bc : Blockchain} {b : Block}
    (hdle : b.depth ≤ bc.blocks.length) :
    (insertBlock bc b).blocks.length =
      (if b.depth = bc.blocks.length then bc.blocks.length + 1 else bc.blocks.length) := by
  rcases Nat.lt_or_ge b.depth bc.blocks.length with hlt | hge
  · have hpad : padBlocks bc.blocks (b.depth + 1) = bc.blocks :=
      padBlocks_eq_self _ _ (by omega)
    show (listModify (fun m => ainsert m b.hash b)
        (padBlocks bc.blocks (b.depth + 1)) b.depth).length = _
    rw [hpad, listModify_length, if_neg (by omega)]
  · have heq : b.depth = bc.blocks.length := Nat.le_antisymm hdle hge
    show (listModify (fun m => ainsert m b.hash b)
        (padBlocks bc.blocks (b.depth + 1)) b.depth).length = _
    rw [padBlocks_append_one bc.blocks heq.symm, listModify_length, if_pos heq]
    simp

theorem coherent_of_blocks_eq {bc1 bc2 : Blockchain} (h : bc2.blocks = bc1.blocks)
    (hco : Coherent bc1) : Coherent bc2 := by
  intro i hi p hp
  unfold blocksAt at hp
  rw [h] at hi hp
  exact hco i hi p hp

theorem mem_padBlocks {blocks : List (List (Hash × Block))} {t : Nat}
    {m : List (Hash × Block)} (h : m ∈ padBlocks blocks t) : m ∈ blocks ∨ m = [] := by
  unfold padBlocks at h
  rcases List.mem_append.mp h with h | h
  · exact Or.inl h
  · exact Or.inr (List.eq_of_mem_replicate h)

theorem coherent_insert {bc : Blockchain} {b : Block} (hco : Coherent bc)
    (hdle : b.depth ≤ bc.blocks.length) : Coherent (insertBlock bc b) := by
  intro i hi p hp
  unfold blocksAt at hp
  by_cases hid : i = b.depth
  · subst hid
    rw [insert_blocksAt_same hdle] at hp
    rcases mem_ainsert_sub hp with hp | hp
    · subst hp
      exact ⟨rfl, rfl⟩
    · rcases Nat.lt_or_ge b.depth bc.blocks.length with hlt | hge
      · exact hco b.depth hlt p hp
      · rw [List.get?_eq_none.mpr hge] at hp
        simp at hp
  · rw [insert_blocksAt_other i hid hdle] at hp
    rcases Nat.lt_or_ge i bc.blocks.length with hlt | hge
    · exact hco i hlt p hp
    · rw [List.get?_eq_none.mpr hge] at hp
      simp at hp

theorem pool_insert {bc : Blockchain} {b : Block} :
    ∀ x ∈ poolBlocks (insertBlock bc b), x = b ∨ x ∈ poolBlocks bc := by
  intro x hx
  rcases List.mem_append.mp hx with hx | hx
  · rcases mem_levelVals.mp hx with ⟨m, hm, p, hp, rfl⟩
    have hm' : m ∈ listModify (fun mm => ainsert mm b.hash b)
        (padBlocks bc.blocks (b.depth + 1)) b.depth := hm
    rcases mem_listModify hm' with hm2 | ⟨m0, hg, hmeq⟩
    · rcases mem_padBlocks hm2 with hm3 | hm3
      · exact Or.inr (List.mem_append.mpr (Or.inl (mem_levelVals.mpr ⟨m, hm3, p, hp, rfl⟩)))
      · subst hm3
        simp at hp
    · subst hmeq
      rcases mem_ainsert_sub hp with hp | hp
      · subst hp
        exact Or.inl rfl
      · rcases mem_padBlocks (List.get?_mem hg) with hm3 | hm3
        · exact Or.inr
            (List.mem_append.mpr (Or.inl (mem_levelVals.mpr ⟨m0, hm3, p, hp, rfl⟩)))
        · subst hm3
          simp at hp
  · exact Or.inr (List.mem_append.mpr (Or.inr hx))

theorem getBlock_eq (bc : Blockchain) (h : Hash) (d : Nat) :
    bc.getBlock h d = alookup ((bc.blocks.get? d).getD []) h := by
  unfold Blockchain.getBlock
  rcases bc.blocks.get? d with _ | m
  · simp [alookup]
  · simp
theorem c8_core {bc : Blockchain} {b tipB parent : Block} {bc2 : Blockchain}
    (hco : Coherent bc) (htm : TipMaxAt bc tipB) (hinj : HashInj (b :: poolBlocks bc))
    (hp : bc.getParent b = some parent)
    (hfc : forkChoice (insertBlock bc b) bc.best_path_head b = some bc2) :
    Coherent bc2 ∧ TipMax bc2 ∧ ∀ x ∈ poolBlocks bc2, x = b ∨ x ∈ poolBlocks bc := by
  obtain ⟨hlen, htip, hmax⟩ := htm
  have hdle : b.depth ≤ bc.blocks.length := by
    unfold Blockchain.getParent at hp
    by_cases h0 : b.depth = 0
    · omega
    · rw [if_neg h0] at hp
      rcases hg : bc.blocks.get? (b.depth - 1) with _ | m
      · rw [hg] at hp
        exact Option.noConfusion hp
      · have hlt : b.depth - 1 < bc.blocks.length := by
          by_contra hcon
          rw [List.get?_eq_none.mpr (Nat.le_of_not_lt hcon)] at hg
          exact Option.noConfusion hg
        omega
  obtain ⟨hb2, ho2, hcase⟩ := forkChoice_cases hfc
  have hco2 : Coherent bc2 := coherent_of_blocks_eq hb2 (coherent_insert hco hdle)
  have hpool2 : ∀ x ∈ poolBlocks bc2, x = b ∨ x ∈ poolBlocks bc := by
    intro x hx
    apply pool_insert
    have hpe : poolBlocks bc2 = poolBlocks (insertBlock bc b) := by
      unfold poolBlocks
      rw [hb2, ho2]
    rwa [hpe] at hx
  refine ⟨hco2, ?_, hpool2⟩
  have holdlt : bc.best_path_head.2 < bc.blocks.length := by omega
  obtain ⟨m0, hm0⟩ : ∃ m0, bc.blocks.get? bc.best_path_head.2 = some m0 := by
    rcases hg : bc.blocks.get? bc.best_path_head.2 with _ | m0
    · rw [List.get?_eq_none] at hg
      omega
    · exact ⟨m0, rfl⟩
  have hm0' : blocksAt bc bc.best_path_head.2 = m0 := by
    unfold blocksAt
    rw [hm0]
    rfl
  rw [hm0'] at htip hmax
  have htipmem : (bc.best_path_head.1, tipB) ∈ m0 := mem_of_alookup htip
  have htippool : tipB ∈ poolBlocks bc :=
    List.mem_append.mpr (Or.inl (mem_levelVals.mpr ⟨m0, List.get?_mem hm0,
      (bc.best_path_head.1, tipB), htipmem, rfl⟩))
  have htiphash : tipB.hash = bc.best_path_head.1 := by
    have hh := hco bc.best_path_head.2 holdlt (bc.best_path_head.1, tipB)
      (by rw [hm0']; exact htipmem)
    exact hh.2
  rcases hcase with ⟨hlt, hhead⟩ | ⟨hnlt, heqd, curr, hg, hsub⟩ | ⟨hnlt, hne, hbceq⟩
  · -- Case A: strictly deeper; b becomes the sole block at a fresh level
    have hdeq : b.depth = bc.blocks.length := by omega
    have hlevel : blocksAt bc2 b.depth = [(b.hash, b)] := by
      unfold blocksAt
      rw [hb2, insert_blocksAt_same hdle,
        List.get?_eq_none.mpr (show bc.blocks.length ≤ b.depth by omega)]
      rfl
    refine ⟨b, ?_⟩
    unfold TipMaxAt
    refine ⟨?_, ?_, ?_⟩
    · rw [hb2, insert_blocks_length hdle, if_pos hdeq, hhead]
      show bc.blocks.length + 1 = b.depth + 1
      omega
    · rw [hhead]
      show alookup (blocksAt bc2 b.depth) b.hash = some b
      rw [hlevel]
      simp [alookup]
    · rw [hhead]
      show ∀ p ∈ blocksAt bc2 b.depth, p.1 ≠ b.hash → b.is_better_than p.2 = true
      intro p hp hpne
      rw [hlevel] at hp
      simp at hp
      exact absurd (by rw [hp]) hpne
  · -- Case B: equal depth
    have hdlt : b.depth < bc.blocks.length := by omega
    have hlevel : blocksAt bc2 b.depth = ainsert m0 b.hash b := by
      unfold blocksAt
      rw [hb2, insert_blocksAt_same hdle, heqd, hm0]
      rfl
    have hlen2 : bc2.blocks.length = bc.blocks.length := by
      rw [hb2, insert_blocks_length hdle, if_neg (by omega)]
    rw [getBlock_eq] at hg
    have hlook : alookup (((insertBlock bc b).blocks.get? bc.best_path_head.2).getD [])
        bc.best_path_head.1
        = if b.hash = bc.best_path_head.1 then some b else some tipB := by
      rw [← heqd, insert_blocksAt_same hdle, heqd, hm0]
      show alookup (ainsert m0 b.hash b) bc.best_path_head.1 = _
      rw [alookup_ainsert]
      by_cases hbh : b.hash = bc.best_path_head.1
      · rw [if_pos hbh, if_pos hbh]
      · rw [if_neg hbh, if_neg hbh]
        exact htip
    rw [hlook] at hg
    by_cases hbh : b.hash = bc.best_path_head.1
    · -- the resubmitted block collides with the tip: it *is* the tip
      rw [if_pos hbh] at hg
      have hcb : curr = b := by
        injection hg with hg'
        exact hg'.symm
      have hbtip : b = tipB := by
        apply hinj b (List.mem_cons_self _ _) tipB (List.mem_cons_of_mem _ htippool)
        rw [hbh]
        exact htiphash.symm
      rcases hsub with ⟨hbt, hh⟩ | ⟨hbt, hbceq⟩
      · rw [hcb, ibt_irrefl] at hbt
        exact Bool.noConfusion hbt
      · have hhead2 : bc2.best_path_head = bc.best_path_head := by
          rw [hbceq]
          rfl
        refine ⟨b, ?_⟩
        unfold TipMaxAt
        refine ⟨?_, ?_, ?_⟩
        · rw [hlen2, hhead2]
          exact hlen
        · rw [hhead2]
          show alookup (blocksAt bc2 bc.best_path_head.2) bc.best_path_head.1 = some b
          rw [← heqd, hlevel, alookup_ainsert, if_pos hbh]
        · rw [hhead2]
          show ∀ p ∈ blocksAt bc2 bc.best_path_head.2, p.1 ≠ bc.best_path_head.1 →
            b.is_better_than p.2 = true
          intro p hp hpne
          rw [← heqd, hlevel] at hp
          rcases mem_ainsert_sub hp with hp | hp
          · exact absurd (by rw [hp, hbh]) hpne
          · rw [hbtip]
            exact hmax p hp hpne
    · rw [if_neg hbh] at hg
      have hct : curr = tipB := by
        injection hg with hg'
        exact hg'.symm
      rw [hct] at hsub
      rcases hsub with ⟨hbt, hh⟩ | ⟨hbt, hbceq⟩
      · -- b beats the tip and becomes the new one
        refine ⟨b, ?_⟩
        unfold TipMaxAt
        refine ⟨?_, ?_, ?_⟩
        · rw [hlen2, hh]
          show bc.blocks.length = b.depth + 1
          omega
        · rw [hh]
          show alookup (blocksAt bc2 b.depth) b.hash = some b
          rw [hlevel, alookup_ainsert, if_pos rfl]
        · rw [hh]
          show ∀ p ∈ blocksAt bc2 b.depth, p.1 ≠ b.hash → b.is_better_than p.2 = true
          intro p hp hpne
          rw [hlevel] at hp
          rcases mem_ainsert_sub hp with hp | hp
          · exact absurd (by rw [hp]) hpne
          · by_cases hp1 : p.1 = bc.best_path_head.1
            · have hp0 : p ∈ m0 := hp
              have hphash : p.2.hash = p.1 := by
                have hh2 := hco bc.best_path_head.2 holdlt p (by rw [hm0']; exact hp0)
                exact hh2.2
              have hppool : p.2 ∈ poolBlocks bc :=
                List.mem_append.mpr (Or.inl (mem_levelVals.mpr ⟨m0, List.get?_mem hm0,
                  p, hp0, rfl⟩))
              have hpt : p.2 = tipB := by
                apply hinj p.2 (List.mem_cons_of_mem _ hppool) tipB
                  (List.mem_cons_of_mem _ htippool)
                rw [hphash, hp1, htiphash]
              rw [hpt]
              exact hbt
            · exact ibt_trans hbt (hmax p hp hp1)
      · -- b loses the tie-break: the old tip stays maximal
        have hhead2 : bc2.best_path_head = bc.best_path_head := by
          rw [hbceq]
          rfl
        refine ⟨tipB, ?_⟩
        unfold TipMaxAt
        refine ⟨?_, ?_, ?_⟩
        · rw [hlen2, hhead2]
          exact hlen
        · rw [hhead2]
          show alookup (blocksAt bc2 bc.best_path_head.2) bc.best_path_head.1 = some tipB
          rw [← heqd, hlevel, alookup_ainsert, if_neg hbh]
          exact htip
        · rw [hhead2]
          show ∀ p ∈ blocksAt bc2 bc.best_path_head.2, p.1 ≠ bc.best_path_head.1 →
            tipB.is_better_than p.2 = true
          intro p hp hpne
          rw [← heqd, hlevel] at hp
          rcases mem_ainsert_sub hp with hp | hp
          · have hph : p.2 = b := by rw [hp]
            rw [hph]
            rcases ibt_total (show tipB.hash ≠ b.hash by
                rw [htiphash]; exact fun hh => hbh hh.symm) with hgood | hbad
            · exact hgood
            · rw [hbad] at hbt
              exact Bool.noConfusion hbt
          · exact hmax p hp hpne
  · -- Case C: shallower block, tip untouched
    have hhead2 : bc2.best_path_head = bc.best_path_head := by
      rw [hbceq]
      rfl
    have hdlt2 : b.depth < bc.best_path_head.2 := by omega
    refine ⟨tipB, ?_⟩
    unfold TipMaxAt
    refine ⟨?_, ?_, ?_⟩
    · rw [hb2, insert_blocks_length hdle, if_neg (by omega), hhead2]
      exact hlen
    · rw [hhead2]
      show alookup (blocksAt bc2 bc.best_path_head.2) bc.best_path_head.1 = some tipB
      unfold blocksAt
      rw [hb2, insert_blocksAt_other bc.best_path_head.2 (by omega) hdle, hm0]
      exact htip
    · rw [hhead2]
      show ∀ p ∈ blocksAt bc2 bc.best_path_head.2,
        p.1 ≠ bc.best_path_head.1 → tipB.is_better_than p.2 = true
      intro p hp hpne
      unfold blocksAt at hp
      rw [hb2, insert_blocksAt_other bc.best_path_head.2 (by omega) hdle, hm0] at hp
      exact hmax p hp hpne

theorem foldl_orphans_none (fuel now : Nat) (os : List Block) :
    os.foldl (fun (acc : Option Blockchain) o =>
      match acc with
      | none => none
      | some st => (Blockchain.add_block fuel now st o).map Prod.fst) none = none := by
  induction os with
  | nil => rfl
  | cons o os ih => simpa using ih

theorem cascadeAux (fuel now : Nat)
    (IH : ∀ (bc : Blockchain) (b tipB : Block) (s' : Blockchain) (flag : Bool),
      Coherent bc → TipMaxAt bc tipB → HashInj (b :: poolBlocks bc) →
      Blockchain.add_block fuel now bc b = some (s', flag) →
      Coherent s' ∧ TipMax s' ∧ ∀ x ∈ poolBlocks s', x = b ∨ x ∈ poolBlocks bc) :
    ∀ (os : List Block) (bc bc4 : Blockchain) (P : List Block),
      Coherent bc → TipMax bc → HashInj P →
      (∀ x ∈ poolBlocks bc, x ∈ P) → (∀ o ∈ os, o ∈ P) →
      os.foldl (fun (acc : Option Blockchain) o =>
        match acc with
        | none => none
        | some st => (Blockchain.add_block fuel now st o).map Prod.fst) (some bc)
        = some bc4 →
      Coherent bc4 ∧ TipMax bc4 ∧ ∀ x ∈ poolBlocks bc4, x ∈ P := by
  intro os
  induction os with
  | nil =>
    intro bc bc4 P hco htm hinjP hsub hos h
    simp only [List.foldl, Option.some.injEq] at h
    subst h
    exact ⟨hco, htm, hsub⟩
  | cons o os ih =>
    intro bc bc4 P hco htm hinjP hsub hos h
    simp only [List.foldl] at h
    rcases hab : Blockchain.add_block fuel now bc o with _ | p
    · rw [hab] at h
      simp only [Option.map_none'] at h
      rw [foldl_orphans_none] at h
      exact Option.noConfusion h
    · rw [hab] at h
      simp only [Option.map_some'] at h
      obtain ⟨st, flag⟩ := p
      obtain ⟨tipB, htmAt⟩ := htm
      have hinjO : HashInj (o :: poolBlocks bc) := by
        apply hashInj_mono _ hinjP
        intro x hx
        rcases List.mem_cons.mp hx with hx | hx
        · subst hx
          exact hos _ (List.mem_cons_self _ _)
        · exact hsub x hx
      obtain ⟨hco', htm', hpool'⟩ := IH bc o tipB st flag hco htmAt hinjO hab
      refine ih st bc4 P hco' htm' hinjP ?_ ?_ h
      · intro x hx
        rcases hpool' x hx with hx | hx
        · subst hx
          exact hos x (List.mem_cons_self _ _)
        · exact hsub x hx
      · intro o' ho'
        exact hos o' (List.mem_cons_of_mem _ ho')

/-- C8: every completed `add_block` call — orphan cascade included —
preserves the tip invariant: starting from a state whose tip is
depth-maximal (the level vector ends at the tip's depth and every stored
block sits at its depth) and `is_better_than`-maximal among the blocks at
that depth, the resulting state's tip is again depth-maximal and
`is_better_than`-maximal at its (new) maximal depth.  The `HashInj`
hypothesis is the collision-free idealization of SHA-256: no two distinct
blocks in play share a hash.  The pool clause makes the invariant
inductive through cascaded orphan re-admissions. -/
theorem c8_tip_maximal : ∀ (fuel now : Nat) (bc : Blockchain) (b tipB : Block)
    (s' : Blockchain) (flag : Bool),
    Coherent bc → TipMaxAt bc tipB → HashInj (b :: poolBlocks bc) →
    Blockchain.add_block fuel now bc b = some (s', flag) →
    Coherent s' ∧ TipMax s' ∧ ∀ x ∈ poolBlocks s', x = b ∨ x ∈ poolBlocks bc := by
  intro fuel
  induction fuel using Nat.strong_induction_on with
  | _ fuel IH =>
    intro now bc b tipB s' flag hco htm hinj h
    unfold Blockchain.add_block at h
    split at h
    · -- signature ok
      split at h
      · -- parent absent: parked as orphan
        simp only [Option.some.injEq, Prod.mk.injEq] at h
        obtain ⟨h1, h2⟩ := h
        subst h1
        refine ⟨coherent_of_blocks_eq rfl hco, ⟨tipB, htm⟩, ?_⟩
        intro x hx
        rcases List.mem_append.mp hx with hx | hx
        · exact Or.inr (List.mem_append.mpr (Or.inl hx))
        · rcases mem_orphVals_orphanInsert hx with hx | hx
          · exact Or.inl hx
          · exact Or.inr (List.mem_append.mpr (Or.inr hx))
      · -- parent present
        rename_i parent hpar
        split at h
        · -- timeslot rejection
          simp only [Option.some.injEq, Prod.mk.injEq] at h
          obtain ⟨h1, h2⟩ := h
          subst h1
          exact ⟨hco, ⟨tipB, htm⟩, fun x hx => Or.inr hx⟩
        · -- inserted; fork choice ran
          rename_i hts
          split at h
          · exact Option.noConfusion h
          · rename_i bc2 hfc
            obtain ⟨hco2, htm2, hpool2⟩ := c8_core hco htm hinj hpar hfc
            split at h
            · -- no orphans under the new block
              simp only [Option.some.injEq, Prod.mk.injEq] at h
              obtain ⟨h1, h2⟩ := h
              subst h1
              exact ⟨hco2, htm2, hpool2⟩
            · -- cascade
              rename_i os hor
              split at h
              · exact Option.noConfusion h
              · rename_i f
                split at h
                · exact Option.noConfusion h
                · rename_i bc4 hfold
                  simp only [Option.some.injEq, Prod.mk.injEq] at h
                  obtain ⟨h1, h2⟩ := h
                  subst h1
                  obtain ⟨tipB2, htm2At⟩ := htm2
                  have hsub3 : ∀ x ∈ poolBlocks
                      { bc2 with orphans := aerase bc2.orphans b.hash },
                      x ∈ b :: poolBlocks bc := by
                    intro x hx
                    rcases List.mem_append.mp hx with hx | hx
                    · rcases hpool2 x (List.mem_append.mpr (Or.inl hx)) with hx | hx
                      · subst hx
                        exact List.mem_cons_self _ _
                      · exact List.mem_cons_of_mem _ hx
                    · have hx2 : x ∈ orphVals bc2.orphans := mem_orphVals_aerase hx
                      rcases hpool2 x (List.mem_append.mpr (Or.inr hx2)) with hx | hx
                      · subst hx
                        exact List.mem_cons_self _ _
                      · exact List.mem_cons_of_mem _ hx
                  have hos : ∀ o ∈ os, o ∈ b :: poolBlocks bc := by
                    intro o ho
                    have ho2 : o ∈ orphVals bc2.orphans := alookup_orphVals hor o ho
                    rcases hpool2 o (List.mem_append.mpr (Or.inr ho2)) with ho3 | ho3
                    · subst ho3
                      exact List.mem_cons_self _ _
                    · exact List.mem_cons_of_mem _ ho3
                  obtain ⟨hco4, htm4, hpool4⟩ := cascadeAux f now
                    (fun bcx bx tx sx fx hcox htmx hinjx hx =>
                      IH f (Nat.lt_succ_self f) now bcx bx tx sx fx hcox htmx hinjx hx)
                    os { bc2 with orphans := aerase bc2.orphans b.hash } bc4
                    (b :: poolBlocks bc)
                    (coherent_of_blocks_eq rfl hco2) ⟨tipB2, htm2At⟩ hinj hsub3 hos hfold
                  refine ⟨hco4, htm4, ?_⟩
                  intro x hx
                  exact List.mem_cons.mp (hpool4 x hx)
    · -- signature invalid: rejected
      simp only [Option.some.injEq, Prod.mk.injEq] at h
      obtain ⟨h1, h2⟩ := h
      subst h1
      exact ⟨hco, ⟨tipB, htm⟩, fun x hx => Or.inr hx⟩

def c8w_b : Block :=
  { timeslot := 1, prev_hash := [0, 1], depth := 1, transactions := [],
    draw := { timeslot := 1, signed_by := 1, prev_hash := [0, 1], value := 4, sigOk := true },
    hash := [15], sigOk := true }

/-- The state reached by admitting `c8w_b` on the freshly started engine. -/
def c8w_s : Blockchain :=
  { blocks := [[((genesisBlock [1]).hash, genesisBlock [1])], [([15], c8w_b)]],
    best_path_head := ([15], 1),
    ledger := ⟨[(1, 350)], []⟩,
    root_accounts := [1],
    orphans := [], transaction_buffer := [] }

/-- Witness for `c8_tip_maximal`: admitting a depth-1 child of the genesis
on `start [1]` yields a state whose tip (`c8w_b`) is depth-maximal and
tie-break maximal. -/
theorem c8_witness :
    Coherent c8w_s ∧ TipMax c8w_s ∧
      ∀ x ∈ poolBlocks c8w_s, x = c8w_b ∨ x ∈ poolBlocks (Blockchain.start [1]) :=
  c8_tip_maximal 1 5 (Blockchain.start [1]) c8w_b (genesisBlock [1]) c8w_s true
    (by unfold Coherent; decide) (by unfold TipMaxAt; decide)
    (by unfold HashInj; decide) (by decide)
